import Mathlib

/-!
Shallow embedding of the command-line argument tokenizer of the
`sttk/cliargdax` repository (package `libarg`).

Two Go implementations of the tokenizer are embedded:
  * the collector-based one in `src/libarg/parse.go` (`parseArgs` taking
    `collectCmdParams` / `collectOptParams` callbacks, instantiated by
    `Parse` with closures that accumulate into `cmdParams` / `optParams`) —
    embedded here with those accumulating collectors inlined (suffix `C`);
  * the `Args`-building one in `src/unnamed/part_000` (`parseArgs`
    writing into the map via `addKeyToMap` / `addKeyValueToMap`) —
    embedded with suffix `P`.

Modelling conventions:
  * a Go string is modelled as a Lean `String`; scans that range over the
    runes of a token work on `String.data`.  On every path on which the Go
    code compares the rune counter `i` with the byte length `len(arg)`,
    all runes scanned so far have passed an ASCII character-class check,
    so rune count and byte count agree; the scan below therefore records
    "the loop ran to completion" where the Go code tests `i == len(arg)`.
  * a Go `map[string][]string` is modelled as an association list with
    unique keys (`OptMap`); map reads are `lookupOpt`.
  * `os.Args[1:]` (read by `Parse` in the Go source) is passed as an
    explicit argument to the embedded `Parse`.
  * the Go functions return a `sabi.Err`; the only error ever produced by
    the tokenizer is the `InvalidOption` reason, so errors are modelled as
    the `InvalidOption` payload itself.
-/

/-- Membership predicate of the Go `rangeOfAlphabets` range table:
`A`–`Z` and `a`–`z`. -/
def rangeOfAlphabets (c : Char) : Bool :=
  ('A' ≤ c && c ≤ 'Z') || ('a' ≤ c && c ≤ 'z')

/-- Membership predicate of the Go `rangeOfAlNumMarks` range table:
`-`, `0`–`9`, `A`–`Z` and `a`–`z`. -/
def rangeOfAlNumMarks (c : Char) : Bool :=
  (c = '-') || ('0' ≤ c && c ≤ '9') || ('A' ≤ c && c ≤ 'Z') || ('a' ≤ c && c ≤ 'z')

/-- The `InvalidOption` error reason of `src/libarg/parse.go` and
`src/unnamed/part_000`. -/
structure InvalidOption where
  Option : String
deriving DecidableEq, Repr

/-- A Go `map[string][]string`, modelled as an association list whose keys
are unique (every write below updates in place or inserts a fresh key). -/
abbrev OptMap := List (String × List String)

/-- Reading `m[key]`: `some` of the stored slice when present, `none`
(Go: nil slice) when absent. -/
def lookupOpt : OptMap → String → Option (List String)
  | [], _ => none
  | (k, vs) :: m, key => if k = key then some vs else lookupOpt m key

/-- Model of `addKeyToMap` in `src/unnamed/part_000`: if `key` is absent, store the
empty slice under it; otherwise leave the map unchanged. -/
def addKeyToMap : OptMap → String → OptMap
  | [], key => [(key, [])]
  | (k, vs) :: m, key =>
    if k = key then (k, vs) :: m else (k, vs) :: addKeyToMap m key

/-- Model of `addKeyValueToMap` in `src/unnamed/part_000`: if `key` is absent, store
the one-element slice `[val]`; otherwise append `val` to the stored slice. -/
def addKeyValueToMap : OptMap → String → String → OptMap
  | [], key, val => [(key, [val])]
  | (k, vs) :: m, key, val =>
    if k = key then (k, vs ++ [val]) :: m else (k, vs) :: addKeyValueToMap m key val

/-- The `collOptParams` closure of `Parse` in `src/libarg/parse.go`:
`optParams[opt] = append(arr, params...)` where `arr` is the stored slice,
or the empty slice when `opt` is absent. -/
def collOptParams : OptMap → String → List String → OptMap
  | [], opt, ps => [(opt, ps)]
  | (k, vs) :: m, opt, ps =>
    if k = opt then (k, vs ++ ps) :: m else (k, vs) :: collOptParams m opt ps

/-- The `Args` result structure (identical field layout in both files). -/
structure Args where
  optParams : OptMap
  cmdParams : List String
deriving DecidableEq, Repr

/-- Model of `Args.HasOpt` (`src/libarg/parse.go`): the key is present in the map. -/
def Args.HasOpt (a : Args) (opt : String) : Bool :=
  (lookupOpt a.optParams opt).isSome

/-- Model of `Args.OptParam`: first stored parameter, or `""` when the stored slice
is absent or empty. -/
def Args.OptParam (a : Args) (opt : String) : String :=
  match lookupOpt a.optParams opt with
  | some (v :: _) => v
  | _ => ""

/-- Model of `Args.OptParams`: the stored slice, the empty list standing for the Go
nil slice when the key is absent. -/
def Args.OptParams (a : Args) (opt : String) : List String :=
  (lookupOpt a.optParams opt).getD []

/-- Model of `Args.CmdParams`. -/
def Args.CmdParams (a : Args) : List String :=
  a.cmdParams

/-- The loop state of both `parseArgs` loops: the two mutable flags plus
the accumulated command parameters and option map. -/
structure ParseState where
  isNonOpt : Bool
  prevOptTakingParams : String
  cmdParams : List String
  optParams : OptMap
deriving DecidableEq, Repr

/-- State at loop entry. -/
def initState : ParseState :=
  { isNonOpt := false, prevOptTakingParams := "", cmdParams := [], optParams := [] }

/-- The long-option scan shared verbatim by both files: runes of the token
after the `--` are checked left to right; the first (`i = 0`) must be in
`rangeOfAlphabets`, later ones stop the scan at `=` and must otherwise be
in `rangeOfAlNumMarks`.  Returns the rune index at which the scan stopped
(`= length` when it ran to completion), or an error on the first rune
outside its class. -/
def longScanAux : List Char → Nat → Except Unit Nat
  | [], i => .ok i
  | r :: rs, i =>
    if i = 0 then
      if rangeOfAlphabets r then longScanAux rs (i + 1) else .error ()
    else
      if r = '=' then .ok i
      else if rangeOfAlNumMarks r then longScanAux rs (i + 1) else .error ()

/-- The short-option scan of `src/unnamed/part_000` (`parseArgs`, `-`
branch): each rune becomes a one-letter option registered with
`addKeyToMap`; at `=` past the first rune the remainder is appended to the
previous rune's option with `addKeyValueToMap` and the scan breaks
(`started` tracks `i > 0`, `opt` the previous rune's name).  Returns the
updated map and the value the loop leaves in `prevOptTakingParams` (set to
the final one-letter option when the loop ran to completion and
`takeParams` holds of it; the branch is entered only with an empty
`prevOptTakingParams`, so "leave unchanged" is returned as `""`). -/
def shortScanP (takeParams : String → Bool) (m : OptMap) :
    List Char → Bool → String → Except InvalidOption (OptMap × String)
  | [], _, opt => .ok (m, if takeParams opt then opt else "")
  | r :: rs, started, opt =>
    if started ∧ r = '=' then
      .ok (addKeyValueToMap m opt (String.mk rs), "")
    else
      if rangeOfAlphabets r then
        shortScanP takeParams (addKeyToMap m (String.mk [r])) rs true (String.mk [r])
      else
        .error ⟨String.mk [r]⟩

/-- One iteration of the `parseArgs` loop of `src/unnamed/part_000`,
processing a single token. -/
def stepP (takeParams : String → Bool) (st : ParseState) (arg : String) :
    Except InvalidOption ParseState :=
  if st.isNonOpt then
    .ok { st with cmdParams := st.cmdParams ++ [arg] }
  else if arg = "--" then
    .ok { st with isNonOpt := true }
  else if 0 < st.prevOptTakingParams.length then
    .ok { st with
          optParams := addKeyValueToMap st.optParams st.prevOptTakingParams arg,
          prevOptTakingParams := "" }
  else if arg.data.take 2 = ['-', '-'] then
    let rest := arg.data.drop 2
    match longScanAux rest 0 with
    | .error _ => .error ⟨String.mk rest⟩
    | .ok i =>
      if i = rest.length then
        let name := String.mk rest
        let st' := { st with optParams := addKeyToMap st.optParams name }
        .ok (if takeParams name then { st' with prevOptTakingParams := name } else st')
      else
        .ok { st with
              optParams := addKeyValueToMap st.optParams
                (String.mk (rest.take i)) (String.mk (rest.drop (i + 1))) }
  else if arg.data.take 1 = ['-'] then
    match shortScanP takeParams st.optParams (arg.data.drop 1) false "" with
    | .error e => .error e
    | .ok (m, prev) => .ok { st with optParams := m, prevOptTakingParams := prev }
  else
    .ok { st with cmdParams := st.cmdParams ++ [arg] }

/-- The `parseArgs` loop of `src/unnamed/part_000` over a token list. -/
def parseLoopP (takeParams : String → Bool) :
    ParseState → List String → Except InvalidOption ParseState
  | st, [] => .ok st
  | st, arg :: rest =>
    match stepP takeParams st arg with
    | .error e => .error e
    | .ok st' => parseLoopP takeParams st' rest

/-- Model of `parseArgs` in `src/unnamed/part_000`: run the loop from the initial
state; on success pack the accumulators into `Args`, on error return the
zero-valued `Args` (the local `a` is not written before an error return)
together with the error. -/
def parseArgs (args : List String) (takeParams : String → Bool) :
    Args × Option InvalidOption :=
  match parseLoopP takeParams initState args with
  | .error e => ({ optParams := [], cmdParams := [] }, some e)
  | .ok st => ({ optParams := st.optParams, cmdParams := st.cmdParams }, none)

/-- The short-option scan of `src/libarg/parse.go` (`parseArgs`, `-`
branch): identical control flow to `shortScanP`, but accumulation goes
through the `collOptParams` collector of `Parse` (with no parameter to
register a rune's option, with one parameter to attach a value). -/
def shortScanC (takeParams : String → Bool) (m : OptMap) :
    List Char → Bool → String → Except InvalidOption (OptMap × String)
  | [], _, opt => .ok (m, if takeParams opt then opt else "")
  | r :: rs, started, opt =>
    if started ∧ r = '=' then
      .ok (collOptParams m opt [String.mk rs], "")
    else
      if rangeOfAlphabets r then
        shortScanC takeParams (collOptParams m (String.mk [r]) []) rs true (String.mk [r])
      else
        .error ⟨String.mk [r]⟩

/-- One iteration of the `parseArgs` loop of `src/libarg/parse.go`, with
the accumulating collectors of `Parse` inlined (they always return
`sabi.Ok()`, so no collector error path exists). -/
def stepC (takeParams : String → Bool) (st : ParseState) (arg : String) :
    Except InvalidOption ParseState :=
  if st.isNonOpt then
    .ok { st with cmdParams := st.cmdParams ++ [arg] }
  else if arg = "--" then
    .ok { st with isNonOpt := true }
  else if 0 < st.prevOptTakingParams.length then
    .ok { st with
          optParams := collOptParams st.optParams st.prevOptTakingParams [arg],
          prevOptTakingParams := "" }
  else if arg.data.take 2 = ['-', '-'] then
    let rest := arg.data.drop 2
    match longScanAux rest 0 with
    | .error _ => .error ⟨String.mk rest⟩
    | .ok i =>
      if i = rest.length then
        let name := String.mk rest
        let st' := { st with optParams := collOptParams st.optParams name [] }
        .ok (if takeParams name then { st' with prevOptTakingParams := name } else st')
      else
        .ok { st with
              optParams := collOptParams st.optParams
                (String.mk (rest.take i)) [String.mk (rest.drop (i + 1))] }
  else if arg.data.take 1 = ['-'] then
    match shortScanC takeParams st.optParams (arg.data.drop 1) false "" with
    | .error e => .error e
    | .ok (m, prev) => .ok { st with optParams := m, prevOptTakingParams := prev }
  else
    .ok { st with cmdParams := st.cmdParams ++ [arg] }

/-- The `parseArgs` loop of `src/libarg/parse.go` over a token list. -/
def parseLoopC (takeParams : String → Bool) :
    ParseState → List String → Except InvalidOption ParseState
  | st, [] => .ok st
  | st, arg :: rest =>
    match stepC takeParams st arg with
    | .error e => .error e
    | .ok st' => parseLoopC takeParams st' rest

/-- The collector pipeline of `src/libarg/parse.go` viewed end to end for
an arbitrary `takeParams`: the accumulated command parameters and option
map on success, the zero-valued `Args` together with the error on failure
(`Parse` returns `Args{}` when `parseArgs` fails). -/
def parseArgsC (args : List String) (takeParams : String → Bool) :
    Args × Option InvalidOption :=
  match parseLoopC takeParams initState args with
  | .error e => ({ optParams := [], cmdParams := [] }, some e)
  | .ok st => ({ optParams := st.optParams, cmdParams := st.cmdParams }, none)

/-- The `_false` helper of `src/libarg/parse.go`. -/
def falseTakeParams (_ : String) : Bool :=
  false

/-- Model of `Parse` in `src/libarg/parse.go`: zero-configuration parsing of the
given token sequence (`os.Args[1:]` in the Go source is passed here as an
explicit argument) with the constantly-false `takeParams`. -/
def Parse (args : List String) : Args × Option InvalidOption :=
  parseArgsC args falseTakeParams

/-- Growth order on option maps: each key's stored slice only gains a
suffix, and key presence is never lost. -/
def MapLe (m m' : OptMap) : Prop :=
  ∀ k, ((lookupOpt m k).getD []) <+: ((lookupOpt m' k).getD []) ∧
    ((lookupOpt m k).isSome → (lookupOpt m' k).isSome)

/-! ### General helper lemmas -/

/-- A string other than `""` has positive length. -/
theorem length_pos_of_ne_empty (s : String) (h : s ≠ "") : 0 < s.length := by
  cases s with
  | mk data =>
    cases data with
    | nil => exact absurd rfl h
    | cons c cs => simp [String.length]

/-! ### C7 — the usage-example scenario -/

/-- C7: parsing `["--foo-bar=A","-a","--baz","-bc=3","qux"]` with zero
configuration succeeds; `a`, `b`, `c` are present, `foo-bar` holds `"A"`,
`c` holds `"3"`, and the command parameters are `["qux"]`. -/
theorem C7_usage_example_scenario :
    (Parse ["--foo-bar=A", "-a", "--baz", "-bc=3", "qux"]).snd = none ∧
    (Parse ["--foo-bar=A", "-a", "--baz", "-bc=3", "qux"]).fst.HasOpt "a" = true ∧
    (Parse ["--foo-bar=A", "-a", "--baz", "-bc=3", "qux"]).fst.HasOpt "b" = true ∧
    (Parse ["--foo-bar=A", "-a", "--baz", "-bc=3", "qux"]).fst.HasOpt "c" = true ∧
    (Parse ["--foo-bar=A", "-a", "--baz", "-bc=3", "qux"]).fst.OptParam "foo-bar" = "A" ∧
    (Parse ["--foo-bar=A", "-a", "--baz", "-bc=3", "qux"]).fst.OptParam "c" = "3" ∧
    (Parse ["--foo-bar=A", "-a", "--baz", "-bc=3", "qux"]).fst.CmdParams = ["qux"] := by
  decide

/-! ### C5 — on failure the returned `Args` is the zero value -/

/-- C5: whenever parsing fails, the `Args` component of the returned pair
is the zero value (no option keys, no command parameters) — in the
`Args`-building tokenizer, in zero-configuration `Parse`, and in the
collector pipeline for any `takeParams`. -/
theorem C5_error_returns_empty_args (args : List String) (tp : String → Bool) :
    ((parseArgs args tp).snd ≠ none →
      (parseArgs args tp).fst = { optParams := [], cmdParams := [] }) ∧
    ((Parse args).snd ≠ none →
      (Parse args).fst = { optParams := [], cmdParams := [] }) ∧
    ((parseArgsC args tp).snd ≠ none →
      (parseArgsC args tp).fst = { optParams := [], cmdParams := [] }) := by
  refine ⟨?_, ?_, ?_⟩
  · unfold parseArgs
    cases parseLoopP tp initState args <;> simp
  · unfold Parse parseArgsC
    cases parseLoopC falseTakeParams initState args <;> simp
  · unfold parseArgsC
    cases parseLoopC tp initState args <;> simp

/-- Witness for C5 at the failing input `["--="]`. -/
theorem C5_witness :
    (parseArgs ["--="] (fun _ => false)).fst = { optParams := [], cmdParams := [] } ∧
    (Parse ["--="]).fst = { optParams := [], cmdParams := [] } := by
  have h := C5_error_returns_empty_args ["--="] (fun _ => false)
  exact ⟨h.1 (by decide), h.2.1 (by decide)⟩

/-! ### C10 — a lone `-` token is silently dropped -/

/-- C10: in both tokenizers, when no terminator has been seen and no
parameter-taking option is pending, the token `"-"` leaves the state
entirely unchanged: it is recorded neither as a command parameter nor as
an option, and it produces no error. -/
theorem C10_single_hyphen_dropped (tp : String → Bool) (st : ParseState)
    (h0 : st.isNonOpt = false) (h1 : st.prevOptTakingParams = "") :
    stepP tp st "-" = .ok st ∧ stepC tp st "-" = .ok st := by
  obtain ⟨n, p, cmd, opt⟩ := st
  simp only at h0 h1
  subst h0 h1
  constructor
  · simp [stepP, shortScanP, ite_self]
  · simp [stepC, shortScanC, ite_self]

/-- Witness for C10 at a concrete state. -/
theorem C10_witness :
    stepP (fun _ => false) ⟨false, "", ["x"], [("a", [])]⟩ "-" =
      .ok ⟨false, "", ["x"], [("a", [])]⟩ := by
  exact (C10_single_hyphen_dropped (fun _ => false
    ) ⟨false, "", ["x"], [("a", [])]⟩ rfl rfl).1

/-! ### C1 — consumption of the token following a pending option -/

/-- C1 fails as stated: with `takeParams` holding of `"f"`, after `-f` the
option `f` awaits its value, yet the following literal `--` is NOT
consumed as that value — it is treated as the terminator, `f` ends up with
no parameter, and the following `x` becomes a command parameter. -/
theorem C1_counterexample :
    (parseArgs ["-f", "--", "x"] (fun s => s == "f")).snd = none ∧
    (parseArgs ["-f", "--", "x"] (fun s => s == "f")).fst.OptParams "f" ≠ ["--"] ∧
    (parseArgs ["-f", "--", "x"] (fun s => s == "f")).fst.OptParams "f" = [] ∧
    (parseArgs ["-f", "--", "x"] (fun s => s == "f")).fst.CmdParams = ["x"] := by
  decide

/-- C1 amended: when a parameter-taking option is pending and no
terminator has been seen, any current token OTHER THAN the literal `--` is
appended verbatim as that option's parameter (even if it looks like an
option itself); the literal `--` is instead treated as the terminator and
the pending option keeps no parameter. -/
theorem C1_amended_pending_param_consumption (tp : String → Bool) (st : ParseState)
    (h0 : st.isNonOpt = false) (h1 : st.prevOptTakingParams ≠ "") :
    (∀ t : String, t ≠ "--" →
      stepP tp st t = .ok { st with
        optParams := addKeyValueToMap st.optParams st.prevOptTakingParams t,
        prevOptTakingParams := "" }) ∧
    stepP tp st "--" = .ok { st with isNonOpt := true } := by
  constructor
  · intro t ht
    unfold stepP
    simp [h0, ht, length_pos_of_ne_empty _ h1]
  · unfold stepP
    simp [h0]

/-- Witness for C1's amended theorem: after `-f` (pending `f`), the
option-like token `-g` is consumed verbatim as `f`'s parameter. -/
theorem C1_witness :
    stepP (fun s => s == "f") ⟨false, "f", [], [("f", [])]⟩ "-g" =
      .ok ⟨false, "", [], [("f", ["-g"])]⟩ := by
  have h := (C1_amended_pending_param_consumption (fun s => s == "f")
    ⟨false, "f", [], [("f", [])]⟩ rfl (by decide)).1 "-g" (by decide)
  rw [h]
  rfl

/-! ### C9 — the two tokenizers are equivalent -/

/-- The `collOptParams` collector called with no parameters acts exactly
like `addKeyToMap`. -/
theorem collOptParams_nil_eq_addKeyToMap (m : OptMap) (k : String) :
    collOptParams m k [] = addKeyToMap m k := by
  induction m with
  | nil => rfl
  | cons kv m ih =>
    obtain ⟨k', vs⟩ := kv
    by_cases h : k' = k <;> simp [collOptParams, addKeyToMap, h, ih]

/-- The `collOptParams` collector called with one parameter acts exactly
like `addKeyValueToMap`. -/
theorem collOptParams_single_eq_addKeyValueToMap (m : OptMap) (k v : String) :
    collOptParams m k [v] = addKeyValueToMap m k v := by
  induction m with
  | nil => rfl
  | cons kv m ih =>
    obtain ⟨k', vs⟩ := kv
    by_cases h : k' = k <;> simp [collOptParams, addKeyValueToMap, h, ih]

/-- The two short-option scans agree. -/
theorem shortScanC_eq_shortScanP (tp : String → Bool) (cs : List Char) :
    ∀ m b o, shortScanC tp m cs b o = shortScanP tp m cs b o := by
  induction cs with
  | nil => intro m b o; rfl
  | cons r rs ih =>
    intro m b o
    simp only [shortScanC, shortScanP, collOptParams_nil_eq_addKeyToMap,
      collOptParams_single_eq_addKeyValueToMap, ih]

/-- The two per-token steps agree. -/
theorem stepC_eq_stepP (tp : String → Bool) (st : ParseState) (arg : String) :
    stepC tp st arg = stepP tp st arg := by
  unfold stepC stepP
  simp only [collOptParams_nil_eq_addKeyToMap, collOptParams_single_eq_addKeyValueToMap,
    shortScanC_eq_shortScanP]

/-- The two loops agree from every state. -/
theorem parseLoopC_eq_parseLoopP (tp : String → Bool) (args : List String) :
    ∀ st, parseLoopC tp st args = parseLoopP tp st args := by
  induction args with
  | nil => intro st; rfl
  | cons a rest ih =>
    intro st
    simp only [parseLoopC, parseLoopP, stepC_eq_stepP]
    cases stepP tp st a with
    | error e => rfl
    | ok st' => exact ih st'

/-- C9: for every token sequence and every `takeParams`, the
collector-based tokenizer of `src/libarg/parse.go` and the `Args`-building
tokenizer of `src/unnamed/part_000` coincide: from any state the loops
return the same outcome (same `InvalidOption` payload on error, same
accumulated state on success), and the assembled `(Args, error)` pairs are
equal. -/
theorem C9_collector_and_direct_tokenizers_equivalent (tp : String → Bool)
    (args : List String) :
    (∀ st, parseLoopC tp st args = parseLoopP tp st args) ∧
    parseArgsC args tp = parseArgs args tp := by
  refine ⟨parseLoopC_eq_parseLoopP tp args, ?_⟩
  unfold parseArgsC parseArgs
  rw [parseLoopC_eq_parseLoopP]

/-! ### C2 — the terminator law -/

/-- The loop over an appended token list runs the first part, then (on
success) the second from the reached state. -/
theorem parseLoopP_append (tp : String → Bool) (xs ys : List String) :
    ∀ st, parseLoopP tp st (xs ++ ys) =
      match parseLoopP tp st xs with
      | .error e => .error e
      | .ok st' => parseLoopP tp st' ys := by
  induction xs with
  | nil => intro st; rfl
  | cons a rest ih =>
    intro st
    simp only [List.cons_append, parseLoopP]
    cases stepP tp st a with
    | error e => rfl
    | ok st' => exact ih st'

/-- Once `isNonOpt` holds, the loop appends every remaining token to the
command parameters and touches nothing else. -/
theorem parseLoopP_nonOpt (tp : String → Bool) (ys : List String) :
    ∀ st, st.isNonOpt = true →
      parseLoopP tp st ys = .ok { st with cmdParams := st.cmdParams ++ ys } := by
  induction ys with
  | nil =>
    intro st h
    simp [parseLoopP]
  | cons y rest ih =>
    intro st h
    simp only [parseLoopP, stepP, h, if_pos]
    rw [ih { isNonOpt := true, prevOptTakingParams := st.prevOptTakingParams,
             cmdParams := st.cmdParams ++ [y], optParams := st.optParams } rfl]
    simp

/-- Processing the literal `--` token never fails and always leaves
`isNonOpt` set. -/
theorem stepP_terminator (tp : String → Bool) (st : ParseState) :
    ∃ st', stepP tp st "--" = .ok st' ∧ st'.isNonOpt = true ∧
      st'.cmdParams = st.cmdParams ++ (if st.isNonOpt then ["--"] else []) ∧
      st'.optParams = st.optParams := by
  cases h : st.isNonOpt with
  | true =>
    refine ⟨{ st with cmdParams := st.cmdParams ++ ["--"] }, ?_, ?_, ?_, rfl⟩
    · unfold stepP; simp [h]
    · simp [h]
    · simp [h]
  | false =>
    refine ⟨{ st with isNonOpt := true }, ?_, rfl, ?_, rfl⟩
    · unfold stepP; simp [h]
    · simp [h]

/-- C2: for any token sequence `X ++ ["--"] ++ Y`, the parse outcome
equals that of `X ++ ["--"]`; on success every token of `Y` lands, in
order and verbatim, at the end of the command parameters, and the option
map is exactly that of `X ++ ["--"]` (so no token of `Y` is recorded as an
option or consumed as an option parameter). -/
theorem C2_terminator_law (tp : String → Bool) (X Y : List String) :
    (parseArgs (X ++ ["--"] ++ Y) tp).snd = (parseArgs (X ++ ["--"]) tp).snd ∧
    ((parseArgs (X ++ ["--"] ++ Y) tp).snd = none →
      (parseArgs (X ++ ["--"] ++ Y) tp).fst.cmdParams =
        (parseArgs (X ++ ["--"]) tp).fst.cmdParams ++ Y ∧
      (parseArgs (X ++ ["--"] ++ Y) tp).fst.optParams =
        (parseArgs (X ++ ["--"]) tp).fst.optParams) := by
  have hsplit : ∀ st, parseLoopP tp st ((X ++ ["--"]) ++ Y) =
      match parseLoopP tp st (X ++ ["--"]) with
      | .error e => .error e
      | .ok st' => parseLoopP tp st' Y := parseLoopP_append tp (X ++ ["--"]) Y
  have hmid : ∀ st', parseLoopP tp initState (X ++ ["--"]) = .ok st' →
      st'.isNonOpt = true := by
    intro st' h
    rw [parseLoopP_append tp X ["--"]] at h
    cases hX : parseLoopP tp initState X with
    | error e => rw [hX] at h; exact absurd h (by simp)
    | ok st₀ =>
      rw [hX] at h
      obtain ⟨st₁, hstep, hnon, _, _⟩ := stepP_terminator tp st₀
      simp only [parseLoopP, hstep] at h
      cases h
      exact hnon
  unfold parseArgs
  rw [List.append_assoc] at *
  rw [hsplit initState]
  cases hpre : parseLoopP tp initState (X ++ ["--"]) with
  | error e => simp
  | ok st' =>
    have hnon := hmid st' hpre
    have hY := parseLoopP_nonOpt tp Y st' hnon
    simp [hY]

/-- Witness for C2 at a concrete split whose suffix contains option-like
tokens and another `--`. -/
theorem C2_witness :
    (parseArgs (["-a"] ++ ["--"] ++ ["-b", "--", "c"]) (fun _ => false)).fst.cmdParams =
      (parseArgs (["-a"] ++ ["--"]) (fun _ => false)).fst.cmdParams ++ ["-b", "--", "c"] ∧
    (parseArgs (["-a"] ++ ["--"] ++ ["-b", "--", "c"]) (fun _ => false)).fst.optParams =
      (parseArgs (["-a"] ++ ["--"]) (fun _ => false)).fst.optParams := by
  exact (C2_terminator_law (fun _ => false) ["-a"] ["-b", "--", "c"]).2 (by decide)

/-! ### C8 — accumulation is monotonic -/

theorem MapLe.refl (m : OptMap) : MapLe m m := by
  intro k
  exact ⟨List.prefix_refl _, id⟩

theorem MapLe.trans {m₁ m₂ m₃ : OptMap} (h₁ : MapLe m₁ m₂) (h₂ : MapLe m₂ m₃) :
    MapLe m₁ m₃ := by
  intro k
  exact ⟨(h₁ k).1.trans (h₂ k).1, fun h => (h₂ k).2 ((h₁ k).2 h)⟩

/-- After `addKeyToMap m k`, the key `k` is present, with its old slice
(or the empty slice when it was absent). -/
theorem lookupOpt_addKeyToMap_self (m : OptMap) (k : String) :
    lookupOpt (addKeyToMap m k) k = some ((lookupOpt m k).getD []) := by
  induction m with
  | nil => simp [addKeyToMap, lookupOpt]
  | cons kv m ih =>
    obtain ⟨k', vs⟩ := kv
    by_cases h : k' = k <;> simp [addKeyToMap, lookupOpt, h, ih]

/-- The operation `addKeyToMap` leaves every other key untouched. -/
theorem lookupOpt_addKeyToMap_other (m : OptMap) (k k' : String) (h : k' ≠ k) :
    lookupOpt (addKeyToMap m k) k' = lookupOpt m k' := by
  induction m with
  | nil => simp [addKeyToMap, lookupOpt, Ne.symm h]
  | cons kv m ih =>
    obtain ⟨k₀, vs⟩ := kv
    by_cases h0 : k₀ = k <;> by_cases h1 : k₀ = k' <;>
      simp_all [addKeyToMap, lookupOpt]

/-- After `addKeyValueToMap m k v`, the key `k` stores its old slice (or
the empty slice) with `v` appended at the end. -/
theorem lookupOpt_addKeyValueToMap_self (m : OptMap) (k : String) (v : String) :
    lookupOpt (addKeyValueToMap m k v) k = some ((lookupOpt m k).getD [] ++ [v]) := by
  induction m with
  | nil => simp [addKeyValueToMap, lookupOpt]
  | cons kv m ih =>
    obtain ⟨k', vs⟩ := kv
    by_cases h : k' = k <;> simp [addKeyValueToMap, lookupOpt, h, ih]

/-- The operation `addKeyValueToMap` leaves every other key untouched. -/
theorem lookupOpt_addKeyValueToMap_other (m : OptMap) (k k' v : String) (h : k' ≠ k) :
    lookupOpt (addKeyValueToMap m k v) k' = lookupOpt m k' := by
  induction m with
  | nil => simp [addKeyValueToMap, lookupOpt, Ne.symm h]
  | cons kv m ih =>
    obtain ⟨k₀, vs⟩ := kv
    by_cases h0 : k₀ = k <;> by_cases h1 : k₀ = k' <;>
      simp_all [addKeyValueToMap, lookupOpt]

theorem MapLe.addKeyToMap (m : OptMap) (k : String) : MapLe m (addKeyToMap m k) := by
  intro k'
  by_cases h : k' = k
  · subst h
    rw [lookupOpt_addKeyToMap_self]
    exact ⟨List.prefix_refl _, fun _ => rfl⟩
  · rw [lookupOpt_addKeyToMap_other m k k' h]
    exact ⟨List.prefix_refl _, id⟩

theorem MapLe.addKeyValueToMap (m : OptMap) (k v : String) :
    MapLe m (addKeyValueToMap m k v) := by
  intro k'
  by_cases h : k' = k
  · subst h
    rw [lookupOpt_addKeyValueToMap_self]
    exact ⟨⟨[v], rfl⟩, fun _ => rfl⟩
  · rw [lookupOpt_addKeyValueToMap_other m k k' v h]
    exact ⟨List.prefix_refl _, id⟩

/-- A successful short-option scan only grows the map. -/
theorem shortScanP_mapLe (tp : String → Bool) (cs : List Char) :
    ∀ m b o m' p, shortScanP tp m cs b o = .ok (m', p) → MapLe m m' := by
  induction cs with
  | nil =>
    intro m b o m' p h
    simp only [shortScanP] at h
    cases h
    exact MapLe.refl m
  | cons r rs ih =>
    intro m b o m' p h
    simp only [shortScanP] at h
    by_cases hb : (b = true) ∧ r = '='
    · rw [if_pos hb] at h
      cases h
      exact MapLe.addKeyValueToMap m o (String.mk rs)
    · rw [if_neg hb] at h
      cases ha : rangeOfAlphabets r with
      | true =>
        rw [ha, if_pos rfl] at h
        exact (MapLe.addKeyToMap m (String.mk [r])).trans (ih _ _ _ _ _ h)
      | false =>
        rw [ha] at h
        simp at h

/-- A successful step only appends at the end of the command parameters
and only grows the option map. -/
theorem stepP_monotone (tp : String → Bool) (st : ParseState) (arg : String)
    (st' : ParseState) (h : stepP tp st arg = .ok st') :
    st.cmdParams <+: st'.cmdParams ∧ MapLe st.optParams st'.optParams := by
  unfold stepP at h
  split at h
  · cases h
    exact ⟨⟨[arg], rfl⟩, MapLe.refl _⟩
  · split at h
    · cases h
      exact ⟨List.prefix_refl _, MapLe.refl _⟩
    · split at h
      · cases h
        exact ⟨List.prefix_refl _, MapLe.addKeyValueToMap _ _ _⟩
      · split at h
        · simp only [] at h
          split at h
          · cases h
          · split at h
            · cases h
              refine ⟨?_, ?_⟩ <;> split <;>
                first
                | exact List.prefix_refl _
                | exact MapLe.addKeyToMap _ _
            · cases h
              exact ⟨List.prefix_refl _, MapLe.addKeyValueToMap _ _ _⟩
        · split at h
          · split at h
            · cases h
            · rename_i m prev heq
              cases h
              exact ⟨List.prefix_refl _, shortScanP_mapLe tp _ _ _ _ _ _ heq⟩
          · cases h
            exact ⟨⟨[arg], rfl⟩, MapLe.refl _⟩

/-- C8: option accumulation is monotonic.  Registering a key stores the
empty slice when it was absent and keeps the old slice otherwise; a later
parameter is appended at the end of the existing slice; and any successful
tokenizer step extends the command parameters only at the end, extends
each option's slice only at the end, and never drops a present key. -/
theorem C8_monotonic_accumulation (tp : String → Bool) :
    (∀ m k, lookupOpt (addKeyToMap m k) k = some ((lookupOpt m k).getD [])) ∧
    (∀ m k v, lookupOpt (addKeyValueToMap m k v) k =
      some ((lookupOpt m k).getD [] ++ [v])) ∧
    (∀ st arg st', stepP tp st arg = .ok st' →
      st.cmdParams <+: st'.cmdParams ∧ MapLe st.optParams st'.optParams) := by
  exact ⟨lookupOpt_addKeyToMap_self, lookupOpt_addKeyValueToMap_self,
    fun st arg st' h => stepP_monotone tp st arg st' h⟩

/-- Witness for C8: one concrete step (registering `-a` from the initial
state) satisfies the monotonicity conclusions. -/
theorem C8_witness :
    ([] : List String) <+: [] ∧ MapLe [] [("a", [])] := by
  exact (C8_monotonic_accumulation (fun _ => false)).2.2 initState "-a"
    ⟨false, "", [], [("a", [])]⟩ rfl

/-! ### C4 — invalid long options -/

/-- Running `longScanAux` below the head position errors exactly when some
character strictly before the first `=` is outside `rangeOfAlNumMarks`. -/
theorem longScanAux_pos_error_iff (cs : List Char) :
    ∀ i, 0 < i → (longScanAux cs i = .error () ↔
      ∃ pre x post, cs = pre ++ x :: post ∧ '=' ∉ pre ∧ x ≠ '=' ∧
        rangeOfAlNumMarks x = false) := by
  induction cs with
  | nil =>
    intro i hi
    constructor
    · intro h
      simp [longScanAux] at h
    · rintro ⟨pre, x, post, habs, -, -, -⟩
      exact absurd habs (by simp)
  | cons r rs ih =>
    intro i hi
    have hne : ¬ i = 0 := by omega
    by_cases heq : r = '='
    · subst heq
      simp only [longScanAux, if_neg hne, if_pos rfl]
      constructor
      · intro h
        exact absurd h (by simp)
      · rintro ⟨pre, x, post, hsplit, hpre, hx, hmark⟩
        cases pre with
        | nil =>
          simp only [List.nil_append, List.cons.injEq] at hsplit
          exact absurd hsplit.1.symm hx
        | cons p ps =>
          simp only [List.cons_append, List.cons.injEq] at hsplit
          exact absurd (hsplit.1 ▸ List.mem_cons_self p ps) hpre
    · by_cases hmark : rangeOfAlNumMarks r = true
      · simp only [longScanAux, if_neg hne, if_neg heq, hmark, ite_true]
        rw [ih (i + 1) (by omega)]
        constructor
        · rintro ⟨pre, x, post, hsplit, hpre, hx, hm⟩
          refine ⟨r :: pre, x, post, by simp [hsplit], ?_, hx, hm⟩
          intro hmem
          rcases List.mem_cons.mp hmem with hh | hh
          · exact heq hh.symm
          · exact hpre hh
        · rintro ⟨pre, x, post, hsplit, hpre, hx, hm⟩
          cases pre with
          | nil =>
            simp only [List.nil_append, List.cons.injEq] at hsplit
            simp [hsplit.1, hm] at hmark
          | cons p ps =>
            simp only [List.cons_append, List.cons.injEq] at hsplit
            refine ⟨ps, x, post, hsplit.2, ?_, hx, hm⟩
            intro hmem
            exact hpre (List.mem_cons_of_mem p hmem)
      · have hmark' : rangeOfAlNumMarks r = false := by
          cases hr : rangeOfAlNumMarks r
          · rfl
          · exact absurd hr hmark
        simp only [longScanAux, if_neg hne, if_neg heq, hmark']
        constructor
        · intro _
          exact ⟨[], r, rs, rfl, by simp, heq, hmark'⟩
        · intro _
          simp

/-- A head rune outside `rangeOfAlphabets` fails the long scan at once. -/
theorem longScanAux_head_false (cs : List Char) (a : Char)
    (h : rangeOfAlphabets a = false) : longScanAux (a :: cs) 0 = .error () := by
  simp [longScanAux, h]

/-- A head rune inside `rangeOfAlphabets` hands the long scan over to the
positions past the head. -/
theorem longScanAux_head_true (cs : List Char) (a : Char)
    (h : rangeOfAlphabets a = true) : longScanAux (a :: cs) 0 = longScanAux cs 1 := by
  simp [longScanAux, h]

/-- On a non-terminator token starting with `--`, with no terminator seen
and no pending option, the step is exactly the long-option branch. -/
theorem stepP_long (tp : String → Bool) (st : ParseState) (l : List Char)
    (h0 : st.isNonOpt = false) (h1 : st.prevOptTakingParams = "") (hl : l ≠ []) :
    stepP tp st (String.mk ('-' :: '-' :: l)) =
      match longScanAux l 0 with
      | .error _ => .error ⟨String.mk l⟩
      | .ok i =>
        if i = l.length then
          .ok (if tp (String.mk l) = true then
            { st with
              optParams := addKeyToMap st.optParams (String.mk l),
              prevOptTakingParams := String.mk l }
          else
            { st with optParams := addKeyToMap st.optParams (String.mk l) })
        else
          .ok { st with
                optParams := addKeyValueToMap st.optParams
                  (String.mk (l.take i)) (String.mk (l.drop (i + 1))) } := by
  have hne : String.mk ('-' :: '-' :: l) ≠ "--" := by
    intro hh
    have h2 : ('-' :: '-' :: l) = ['-', '-'] := congrArg String.data hh
    simp at h2
    exact hl h2
  unfold stepP
  simp only [h0, h1, Bool.false_eq_true, if_false, if_neg hne,
    show (("" : String).length) = 0 from rfl, Nat.lt_irrefl,
    show List.take 2 ('-' :: '-' :: l) = ['-', '-'] from rfl, ite_true,
    show List.drop 2 ('-' :: '-' :: l) = l from rfl]

/-- C4: a token `--` followed by head rune `a` and tail `cs` (so not the
bare terminator) makes the tokenizer fail exactly when `a` is not an ASCII
letter or some rune of `cs` strictly before the first `=` is not a letter,
digit or hyphen; and the error then names the full remainder `a :: cs`. -/
theorem C4_long_option_invalid_iff (tp : String → Bool) (st : ParseState)
    (a : Char) (cs : List Char)
    (h0 : st.isNonOpt = false) (h1 : st.prevOptTakingParams = "") :
    ((∃ e, stepP tp st (String.mk ('-' :: '-' :: a :: cs)) = .error e) ↔
      (rangeOfAlphabets a = false ∨
        ∃ pre x post, cs = pre ++ x :: post ∧ '=' ∉ pre ∧ x ≠ '=' ∧
          rangeOfAlNumMarks x = false)) ∧
    (∀ e, stepP tp st (String.mk ('-' :: '-' :: a :: cs)) = .error e →
      e = ⟨String.mk (a :: cs)⟩) := by
  have hstep := stepP_long tp st (a :: cs) h0 h1 (by simp)
  constructor
  · constructor
    · rintro ⟨e, he⟩
      rw [hstep] at he
      cases hscan : longScanAux (a :: cs) 0 with
      | error u =>
        by_cases ha : rangeOfAlphabets a = true
        · right
          rw [longScanAux_head_true cs a ha] at hscan
          cases u
          exact (longScanAux_pos_error_iff cs 1 (by omega)).mp hscan
        · left
          cases hb : rangeOfAlphabets a
          · rfl
          · exact absurd hb ha
      | ok i =>
        exfalso
        rw [hscan] at he
        simp only [] at he
        by_cases hi : i = (a :: cs).length
        · rw [if_pos hi] at he
          split at he <;> cases he
        · rw [if_neg hi] at he
          cases he
    · intro hcond
      refine ⟨⟨String.mk (a :: cs)⟩, ?_⟩
      rw [hstep]
      have herr : longScanAux (a :: cs) 0 = .error () := by
        cases hcond with
        | inl ha => exact longScanAux_head_false cs a ha
        | inr hdec =>
          by_cases ha : rangeOfAlphabets a = true
          · rw [longScanAux_head_true cs a ha]
            exact (longScanAux_pos_error_iff cs 1 (by omega)).mpr hdec
          · refine longScanAux_head_false cs a ?_
            cases hb : rangeOfAlphabets a
            · rfl
            · exact absurd hb ha
      rw [herr]
  · intro e he
    rw [hstep] at he
    cases hscan : longScanAux (a :: cs) 0 with
    | error u =>
      rw [hscan] at he
      simp only [] at he
      cases he
      rfl
    | ok i =>
      exfalso
      rw [hscan] at he
      simp only [] at he
      by_cases hi : i = (a :: cs).length
      · rw [if_pos hi] at he
        split at he <;> cases he
      · rw [if_neg hi] at he
        cases he

/-- Witness for C4 at the invalid long option `--foo!` (the `!` violates
the continuation class): the step fails naming the remainder `foo!`. -/
theorem C4_witness :
    stepP (fun _ => false) initState (String.mk ['-', '-', 'f', 'o', 'o', '!']) =
      .error ⟨String.mk ['f', 'o', 'o', '!']⟩ := by
  have h := C4_long_option_invalid_iff (fun _ => false) initState 'f' ['o', 'o', '!']
    rfl rfl
  obtain ⟨e, he⟩ := h.1.mpr
    (Or.inr ⟨['o', 'o'], '!', [], rfl, by decide, by decide, by decide⟩)
  rw [he, h.2 e he]

/-! ### C6 — zero-configuration mode -/

/-- Past the head, a list of runes inside `rangeOfAlNumMarks` is scanned
to completion. -/
theorem longScanAux_all_marks (ns : List Char) :
    ∀ i, 0 < i → (∀ x ∈ ns, rangeOfAlNumMarks x = true) →
      longScanAux ns i = .ok (i + ns.length) := by
  induction ns with
  | nil =>
    intro i hi h
    simp [longScanAux]
  | cons r rs ih =>
    intro i hi h
    have hr : rangeOfAlNumMarks r = true := h r (List.mem_cons_self r rs)
    have hne : ¬ i = 0 := by omega
    have hreq : r ≠ '=' := by
      intro hh
      subst hh
      exact absurd hr (by decide)
    simp only [longScanAux, if_neg hne, if_neg hreq, hr, ite_true]
    rw [ih (i + 1) (by omega) (fun x hx => h x (List.mem_cons_of_mem r hx))]
    simp only [List.length_cons]
    congr 1
    omega

/-- Under the constantly-false `takeParams`, a successful short-option
scan never sets a pending option. -/
theorem shortScanP_false_prev (cs : List Char) :
    ∀ m b o m' p, shortScanP falseTakeParams m cs b o = .ok (m', p) → p = "" := by
  induction cs with
  | nil =>
    intro m b o m' p h
    simp [shortScanP, falseTakeParams] at h
    exact h.2.symm
  | cons r rs ih =>
    intro m b o m' p h
    simp only [shortScanP] at h
    split at h
    · cases h
      rfl
    · split at h
      · exact ih _ _ _ _ _ h
      · cases h

/-- Under the constantly-false `takeParams`, an all-alphabetic cluster is
scanned to completion, registering each rune in order and leaving no
pending option. -/
theorem shortScanP_all_alpha_false (cs : List Char) :
    ∀ m b o, (∀ x ∈ cs, rangeOfAlphabets x = true) →
      shortScanP falseTakeParams m cs b o =
        .ok (cs.foldl (fun acc x => addKeyToMap acc (String.mk [x])) m, "") := by
  induction cs with
  | nil =>
    intro m b o h
    simp [shortScanP, falseTakeParams]
  | cons r rs ih =>
    intro m b o h
    have hr : rangeOfAlphabets r = true := h r (List.mem_cons_self r rs)
    have hreq : r ≠ '=' := by
      intro hh
      subst hh
      exact absurd hr (by decide)
    simp only [shortScanP, hr, ite_true, List.foldl_cons]
    rw [if_neg (fun hc => hreq hc.2)]
    exact ih _ _ _ (fun x hx => h x (List.mem_cons_of_mem r hx))

/-- On a token `-` followed by a rune other than `-`, with no terminator
seen and no pending option, the step is exactly the short-option branch. -/
theorem stepP_short (tp : String → Bool) (st : ParseState) (x : Char) (xs : List Char)
    (h0 : st.isNonOpt = false) (h1 : st.prevOptTakingParams = "") (hx : x ≠ '-') :
    stepP tp st (String.mk ('-' :: x :: xs)) =
      match shortScanP tp st.optParams (x :: xs) false "" with
      | .error e => .error e
      | .ok (m, prev) =>
        .ok { st with optParams := m, prevOptTakingParams := prev } := by
  have hne : String.mk ('-' :: x :: xs) ≠ "--" := by
    intro hh
    have h2 : ('-' :: x :: xs) = ['-', '-'] := congrArg String.data hh
    simp at h2
    exact hx h2.1
  have htake : List.take 2 ('-' :: x :: xs) ≠ ['-', '-'] := by
    intro hh
    have h2 : ['-', x] = ['-', '-'] := hh
    injection h2 with _ h3
    injection h3 with h4 _
    exact hx h4
  unfold stepP
  simp only [h0, h1, Bool.false_eq_true, if_false, if_neg hne,
    show (("" : String).length) = 0 from rfl, Nat.lt_irrefl, if_neg htake,
    show List.take 1 ('-' :: x :: xs) = ['-'] from rfl, ite_true,
    show List.drop 1 ('-' :: x :: xs) = x :: xs from rfl]

/-- A token not starting with `-`, with no terminator seen and no pending
option, is appended to the command parameters. -/
theorem stepP_bare (tp : String → Bool) (st : ParseState) (arg : String)
    (h0 : st.isNonOpt = false) (h1 : st.prevOptTakingParams = "")
    (hh : arg.data.take 1 ≠ ['-']) :
    stepP tp st arg = .ok { st with cmdParams := st.cmdParams ++ [arg] } := by
  have hne : arg ≠ "--" := by
    intro hcontra
    subst hcontra
    exact hh rfl
  have h2 : arg.data.take 2 ≠ ['-', '-'] := by
    intro hcontra
    apply hh
    cases hd : arg.data with
    | nil =>
      rw [hd] at hcontra
      exact absurd hcontra (by simp)
    | cons c t =>
      rw [hd] at hcontra
      have h3 : c :: List.take 1 t = ['-', '-'] := hcontra
      injection h3 with hc _
      show c :: List.take 0 t = ['-']
      rw [hc]
      rfl
  unfold stepP
  simp only [h0, h1, Bool.false_eq_true, if_false, if_neg hne,
    show (("" : String).length) = 0 from rfl, Nat.lt_irrefl, if_neg h2, if_neg hh]

/-- Under the constantly-false `takeParams`, a successful step never
creates a pending parameter-taking option. -/
theorem stepC_false_prev (st : ParseState) (arg : String) (st' : ParseState)
    (h1 : st.prevOptTakingParams = "")
    (h : stepC falseTakeParams st arg = .ok st') :
    st'.prevOptTakingParams = "" := by
  unfold stepC at h
  split at h
  · cases h
    exact h1
  · split at h
    · cases h
      exact h1
    · split at h
      · cases h
        rfl
      · split at h
        · simp only [] at h
          split at h
          · cases h
          · split at h
            · cases h
              simp [falseTakeParams, h1]
            · cases h
              exact h1
        · split at h
          · split at h
            · cases h
            · rename_i m prev heq
              cases h
              rw [shortScanC_eq_shortScanP] at heq
              exact shortScanP_false_prev _ _ _ _ _ _ heq
          · cases h
            exact h1

/-- C6: the zero-configuration mode of `Parse` (constantly-false
`takeParams`): a step never leaves an option awaiting a parameter, so no
bare token is ever consumed as an option parameter; every syntactically
valid long option and all-alphabetic short cluster is accepted and
recorded under its own name with no value attached; any token not
starting with `-` becomes a command parameter; and the empty input yields
the empty result (no defaults are injected). -/
theorem C6_zero_configuration :
    (∀ st arg st', st.prevOptTakingParams = "" →
      stepC falseTakeParams st arg = .ok st' → st'.prevOptTakingParams = "") ∧
    (∀ st (a : Char) (ns : List Char), st.isNonOpt = false →
      st.prevOptTakingParams = "" → rangeOfAlphabets a = true →
      (∀ x ∈ ns, rangeOfAlNumMarks x = true) →
      stepC falseTakeParams st (String.mk ('-' :: '-' :: a :: ns)) =
        .ok { st with optParams := collOptParams st.optParams (String.mk (a :: ns)) [] }) ∧
    (∀ st (x : Char) (xs : List Char), st.isNonOpt = false →
      st.prevOptTakingParams = "" →
      (∀ y ∈ x :: xs, rangeOfAlphabets y = true) →
      stepC falseTakeParams st (String.mk ('-' :: x :: xs)) =
        .ok { st with
              optParams :=
                (x :: xs).foldl
                  (fun acc y => collOptParams acc (String.mk [y]) [])
                  st.optParams }) ∧
    (∀ st (arg : String), st.isNonOpt = false → st.prevOptTakingParams = "" →
      arg.data.take 1 ≠ ['-'] →
      stepC falseTakeParams st arg = .ok { st with cmdParams := st.cmdParams ++ [arg] }) ∧
    Parse [] = ({ optParams := [], cmdParams := [] }, none) := by
  refine ⟨stepC_false_prev, ?_, ?_, ?_, rfl⟩
  · intro st a ns h0 h1 ha hns
    rw [stepC_eq_stepP, stepP_long falseTakeParams st (a :: ns) h0 h1 (by simp)]
    rw [longScanAux_head_true ns a ha, longScanAux_all_marks ns 1 (by omega) hns]
    simp only []
    rw [if_pos (by simp [List.length_cons]; omega)]
    rw [collOptParams_nil_eq_addKeyToMap]
    simp [falseTakeParams]
  · intro st x xs h0 h1 hall
    have hx : x ≠ '-' := by
      intro hh
      subst hh
      exact absurd (hall '-' (List.mem_cons_self _ _)) (by decide)
    rw [stepC_eq_stepP, stepP_short falseTakeParams st x xs h0 h1 hx]
    rw [shortScanP_all_alpha_false (x :: xs) st.optParams false "" hall]
    simp only []
    have hfun : (fun acc y => collOptParams acc (String.mk [y]) []) =
        (fun acc y => addKeyToMap acc (String.mk [y])) := by
      funext acc y
      exact collOptParams_nil_eq_addKeyToMap acc (String.mk [y])
    rw [hfun]
    obtain ⟨n, p, cmd, opt⟩ := st
    simp only at h1
    subst h1
    rfl
  · intro st arg h0 h1 hh
    rw [stepC_eq_stepP]
    exact stepP_bare falseTakeParams st arg h0 h1 hh

/-- Witness for C6: the long option `--foo` from the initial state is
accepted and registered with no value. -/
theorem C6_witness :
    stepC falseTakeParams initState (String.mk ['-', '-', 'f', 'o', 'o']) =
      .ok { initState with optParams := [("foo", [])] } := by
  have h := C6_zero_configuration.2.1 initState 'f' ['o', 'o'] rfl rfl
    (by decide) (by decide)
  rw [h]
  rfl

/-! ### C3 — combined short clusters expand to separate options -/

/-- Scanning an alphabetic rune registers it and continues. -/
theorem shortScanP_cons_alpha (tp : String → Bool) (m : OptMap) (x : Char)
    (xs : List Char) (b : Bool) (o : String) (h : rangeOfAlphabets x = true) :
    shortScanP tp m (x :: xs) b o =
      shortScanP tp (addKeyToMap m (String.mk [x])) xs true (String.mk [x]) := by
  have hx : x ≠ '=' := by
    intro hh
    subst hh
    exact absurd h (by decide)
  simp only [shortScanP, h, ite_true]
  rw [if_neg (fun hc => hx hc.2)]

/-- When the head rune is alphabetic, the `started` flag and the previous
option name do not influence the scan. -/
theorem shortScanP_start_irrelevant (tp : String → Bool) (m : OptMap) (x : Char)
    (xs : List Char) (b : Bool) (o : String) (b' : Bool) (o' : String)
    (h : rangeOfAlphabets x = true) :
    shortScanP tp m (x :: xs) b o = shortScanP tp m (x :: xs) b' o' := by
  rw [shortScanP_cons_alpha tp m x xs b o h, shortScanP_cons_alpha tp m x xs b' o' h]

/-- Unfolding one loop iteration on a short-option token. -/
theorem parseLoopP_short_unfold (tp : String → Bool) (cmd : List String)
    (opt : OptMap) (x : Char) (xs : List Char) (rest : List String) (hx : x ≠ '-') :
    parseLoopP tp ⟨false, "", cmd, opt⟩ (String.mk ('-' :: x :: xs) :: rest) =
      match shortScanP tp opt (x :: xs) false "" with
      | .error e => .error e
      | .ok (m, prev) => parseLoopP tp ⟨false, prev, cmd, m⟩ rest := by
  simp only [parseLoopP]
  rw [stepP_short tp ⟨false, "", cmd, opt⟩ x xs rfl rfl hx]
  cases shortScanP tp opt (x :: xs) false "" with
  | error e => rfl
  | ok pr =>
    obtain ⟨m, prev⟩ := pr
    rfl

/-- C3: a combined short-option cluster `-` followed by runes `ds ++ [c]`
(all alphabetic) and an optional inline `=value` tail parses exactly like
the separate tokens `-d₁ … -dₙ -c(tail)`, in any continuation and from
any state with no terminator seen and no pending option — provided no
non-final cluster rune is itself parameter-taking (only the last rune of a
cluster is eligible to take an inline or trailing parameter). -/
theorem C3_cluster_expansion (tp : String → Bool) (ds : List Char) :
    ∀ (st : ParseState) (c : Char) (tl : List Char) (rest : List String),
      st.isNonOpt = false → st.prevOptTakingParams = "" →
      (∀ x ∈ ds ++ [c], rangeOfAlphabets x = true) →
      (tl = [] ∨ ∃ v, tl = '=' :: v) →
      (∀ x ∈ ds, tp (String.mk [x]) = false) →
      parseLoopP tp st (String.mk ('-' :: (ds ++ [c]) ++ tl) :: rest) =
        parseLoopP tp st ((ds.map fun x => String.mk ['-', x]) ++
          (String.mk ('-' :: c :: tl) :: rest)) := by
  induction ds with
  | nil =>
    intro st c tl rest h0 h1 h2 h3 h4
    simp
  | cons d ds ih =>
    intro st c tl rest h0 h1 h2 h3 h4
    obtain ⟨n, p, cmd, opt⟩ := st
    simp only at h0 h1
    subst h0 h1
    have hd : rangeOfAlphabets d = true := h2 d (by simp)
    have hdne : d ≠ '-' := by
      intro hh
      subst hh
      exact absurd hd (by decide)
    have htpd : tp (String.mk [d]) = false := h4 d (List.mem_cons_self _ _)
    have h2' : ∀ x ∈ ds ++ [c], rangeOfAlphabets x = true :=
      fun x hx => h2 x (List.mem_cons_of_mem d hx)
    have h4' : ∀ x ∈ ds, tp (String.mk [x]) = false :=
      fun x hx => h4 x (List.mem_cons_of_mem _ hx)
    obtain ⟨y, ys, hEeq, hy⟩ :
        ∃ y ys, (ds ++ [c]) ++ tl = y :: ys ∧ rangeOfAlphabets y = true := by
      cases ds with
      | nil => exact ⟨c, tl, by simp, h2 c (by simp)⟩
      | cons e es => exact ⟨e, (es ++ [c]) ++ tl, by simp, h2' e (by simp)⟩
    have hyne : y ≠ '-' := by
      intro hh
      subst hh
      exact absurd hy (by decide)
    simp only [List.cons_append, List.map_cons]
    rw [parseLoopP_short_unfold tp cmd opt d ((ds ++ [c]) ++ tl) rest hdne]
    rw [parseLoopP_short_unfold tp cmd opt d []
      ((ds.map fun x => String.mk ['-', x]) ++ (String.mk ('-' :: c :: tl) :: rest)) hdne]
    rw [shortScanP_cons_alpha tp opt d ((ds ++ [c]) ++ tl) false "" hd]
    rw [shortScanP_cons_alpha tp opt d [] false "" hd]
    have hnil : shortScanP tp (addKeyToMap opt (String.mk [d])) [] true (String.mk [d]) =
        .ok (addKeyToMap opt (String.mk [d]), "") := by
      simp [shortScanP, htpd]
    rw [hnil]
    simp only []
    rw [← ih ⟨false, "", cmd, addKeyToMap opt (String.mk [d])⟩ c tl rest rfl rfl h2' h3 h4']
    simp only [List.cons_append]
    rw [hEeq]
    rw [shortScanP_start_irrelevant tp (addKeyToMap opt (String.mk [d])) y ys
      true (String.mk [d]) false "" hy]
    rw [parseLoopP_short_unfold tp cmd (addKeyToMap opt (String.mk [d])) y ys rest hyne]

/-- Witness for C3: `-abc=3` parses like `-a -b -c=3` before a trailing
command parameter, with `c` configured to take a parameter. -/
theorem C3_witness :
    parseLoopP (fun s => s == "c") initState
      [String.mk ['-', 'a', 'b', 'c', '=', '3'], "x"] =
    parseLoopP (fun s => s == "c") initState
      ["-a", "-b", String.mk ['-', 'c', '=', '3'], "x"] := by
  exact C3_cluster_expansion (fun s => s == "c") ['a', 'b'] initState 'c' ['=', '3']
    ["x"] rfl rfl (by decide) (Or.inr ⟨['3'], rfl⟩) (by decide)
